import Mathlib

/-
Verification of the Hadith Shorts generator core, embedded shallowly from the
TypeScript sources:

* Audio decode pipeline: decodeRawPcm (src/App.tsx lines 8-25) converts a
  headerless little-endian signed 16-bit PCM byte stream into a normalized
  multi-channel sample buffer.
* Text layout engine: wrapText (components/VideoPreview, lines 195-212) packs
  words greedily into lines, and the render routine (lines 89-101) selects a
  font-size pair from the total character count.
* Frame compositor: the cover-fit computation for the background visual
  (components/VideoPreview, lines 49-65).
* Capture and mux orchestrator: the progress computation of the poll interval
  (src/App.tsx lines 149-162), the recorder stop handler (lines 136-140), the
  entry guard of generateFullVideo (lines 81-86), and the disabled condition
  of the Produce Short button (line 294).

Numbers that the host language treats as IEEE doubles are modelled as
rationals; every value manipulated by the verified fragments (byte values,
16-bit samples divided by 32768, pixel sizes, millisecond counts) is exactly
representable as a double, so the rational model is faithful.
-/

/- ===================== Audio Decode Pipeline ===================== -/

/-- Signed 16-bit little-endian value of a byte pair, as read through the
Int16Array view built in decodeRawPcm (src/App.tsx line 14). -/
def int16OfLE (lo hi : Fin 256) : ℤ :=
  let u : ℕ := lo.val + 256 * hi.val
  if u < 32768 then (u : ℤ) else (u : ℤ) - 65536

/-- The Int16Array view of a byte sequence: consecutive byte pairs read as
little-endian signed 16-bit integers. -/
def toInt16List : List (Fin 256) → List ℤ
  | lo :: hi :: rest => int16OfLE lo hi :: toInt16List rest
  | _ => []

/-- Failure modes of the decode path. Building the Int16Array view of an
odd-length buffer throws, and createBuffer throws when the channel count is
not positive or the frame count is zero; the spec groups both under
DecodeError. -/
inductive DecodeError where
  | oddByteLength
  | invalidBufferShape

/-- The decoded audio buffer: a sample rate and one list of normalized
samples per channel. -/
structure AudioBuffer where
  sampleRate : ℕ
  channels : List (List ℚ)

/-- Shallow embedding of decodeRawPcm (src/App.tsx lines 8-25). The frame
count written by the host is the byte-pair count divided by the channel
count; the target buffer API truncates that quotient to a natural number and
rejects a zero frame count or a nonpositive channel count, and out-of-range
writes of the fill loop are discarded, so the observable buffer holds exactly
floor(len16 / numChannels) frames per channel. -/
def decodeRawPcm (data : List (Fin 256)) (sampleRate : ℕ) (numChannels : ℤ) :
    Except DecodeError AudioBuffer :=
  if data.length % 2 ≠ 0 then
    Except.error DecodeError.oddByteLength
  else
    let dataInt16 := toInt16List data
    if numChannels ≤ 0 then
      Except.error DecodeError.invalidBufferShape
    else
      let nc := numChannels.toNat
      let frameCount := dataInt16.length / nc
      if frameCount = 0 then
        Except.error DecodeError.invalidBufferShape
      else
        Except.ok
          { sampleRate := sampleRate,
            channels :=
              (List.range nc).map fun channel =>
                (List.range frameCount).map fun i =>
                  (dataInt16.getD (i * nc + channel) 0 : ℚ) / 32768 }

theorem toInt16List_length : ∀ l : List (Fin 256), (toInt16List l).length = l.length / 2
  | [] => by simp [toInt16List]
  | [_] => by simp [toInt16List]
  | _ :: _ :: rest => by
    simp only [toInt16List, List.length_cons, toInt16List_length rest]
    omega

theorem int16OfLE_bounds (lo hi : Fin 256) :
    -32768 ≤ int16OfLE lo hi ∧ int16OfLE lo hi ≤ 32767 := by
  have hlo := lo.isLt
  have hhi := hi.isLt
  simp only [int16OfLE]
  split <;> omega

theorem toInt16List_bounds :
    ∀ l : List (Fin 256), ∀ z ∈ toInt16List l, -32768 ≤ z ∧ z ≤ 32767
  | [] => by intro z hz; simp [toInt16List] at hz
  | [_] => by intro z hz; simp [toInt16List] at hz
  | lo :: hi :: rest => by
    intro z hz
    rcases List.mem_cons.mp hz with h | h
    · subst h; exact int16OfLE_bounds lo hi
    · exact toInt16List_bounds rest z h

theorem toInt16List_getD_bounds (l : List (Fin 256)) (j : ℕ) :
    -32768 ≤ (toInt16List l).getD j 0 ∧ (toInt16List l).getD j 0 ≤ 32767 := by
  by_cases h : j < (toInt16List l).length
  · rw [List.getD_eq_getElem?_getD, List.getElem?_eq_getElem h]
    exact toInt16List_bounds l _ (List.getElem_mem h)
  · rw [List.getD_eq_getElem?_getD, List.getElem?_eq_none (by omega)]
    exact ⟨by norm_num, by norm_num⟩

theorem getD_map_range {β : Type} (f : ℕ → β) (n c : ℕ) (h : c < n) (d : β) :
    (((List.range n).map f).getD c d) = f c := by
  rw [List.getD_eq_getElem?_getD, List.getElem?_map, List.getElem?_range h]
  rfl

/-- C1: decodeRawPcm fails with a DecodeError exactly when the byte length is
odd, the channel count is nonpositive, or the resulting frame count is zero;
on every other input it succeeds. -/
theorem decodeRawPcm_error_iff (data : List (Fin 256)) (sr : ℕ) (nc : ℤ) :
    ((∃ e, decodeRawPcm data sr nc = Except.error e) ↔
      (data.length % 2 ≠ 0 ∨ nc ≤ 0 ∨ data.length / 2 / nc.toNat = 0)) ∧
    ((∃ buf, decodeRawPcm data sr nc = Except.ok buf) ↔
      ¬(data.length % 2 ≠ 0 ∨ nc ≤ 0 ∨ data.length / 2 / nc.toNat = 0)) := by
  simp only [decodeRawPcm, toInt16List_length]
  split_ifs with h1 h2 h3
  · exact ⟨⟨fun _ => Or.inl h1, fun _ => ⟨_, rfl⟩⟩,
      ⟨fun ⟨b, hb⟩ => hb.elim, fun h => absurd (Or.inl h1) h⟩⟩
  · exact ⟨⟨fun _ => Or.inr (Or.inl h2), fun _ => ⟨_, rfl⟩⟩,
      ⟨fun ⟨b, hb⟩ => hb.elim, fun h => absurd (Or.inr (Or.inl h2)) h⟩⟩
  · exact ⟨⟨fun _ => Or.inr (Or.inr h3), fun _ => ⟨_, rfl⟩⟩,
      ⟨fun ⟨b, hb⟩ => hb.elim, fun h => absurd (Or.inr (Or.inr h3)) h⟩⟩
  · refine ⟨⟨fun ⟨e, he⟩ => he.elim, fun h => ?_⟩,
      ⟨fun _ => ?_, fun _ => ⟨_, rfl⟩⟩⟩
    · rcases h with h | h | h
      exacts [absurd h h1, absurd h h2, absurd h h3]
    · intro h
      rcases h with h | h | h
      exacts [absurd h h1, absurd h h2, absurd h h3]

/-- Witness for C1 at a concrete input: a three-byte buffer has odd length, so
decoding it fails. -/
theorem decodeRawPcm_error_iff_witness :
    ∃ e, decodeRawPcm [(0 : Fin 256), 0, 0] 24000 1 = Except.error e :=
  (decodeRawPcm_error_iff [(0 : Fin 256), 0, 0] 24000 1).1.mpr (by decide)

/-- C2: on an even-length byte sequence of at least 2 times channelCount
bytes, decode succeeds with floor(len/2/channelCount) samples per channel,
discarding any trailing partial frame; each stored sample is the signed
16-bit little-endian value at its interleaved position divided by 32768, and
every sample lies in the interval from -1 inclusive to 1 exclusive. -/
theorem decodeRawPcm_ok_spec (data : List (Fin 256)) (sr nc : ℕ)
    (hnc : 0 < nc) (heven : data.length % 2 = 0) (hlen : 2 * nc ≤ data.length) :
    ∃ buf, decodeRawPcm data sr (nc : ℤ) = Except.ok buf ∧
      buf.channels.length = nc ∧
      (∀ ch ∈ buf.channels, ch.length = data.length / 2 / nc) ∧
      (∀ ch ∈ buf.channels, ∀ s ∈ ch, -1 ≤ s ∧ s < 1) ∧
      (∀ c i, c < nc → i < data.length / 2 / nc →
        (buf.channels.getD c []).getD i 0 =
          ((toInt16List data).getD (i * nc + c) 0 : ℚ) / 32768) := by
  have hframe : data.length / 2 / nc ≠ 0 := by
    rw [Ne, Nat.div_eq_zero_iff hnc]
    omega
  have hdec : decodeRawPcm data sr (nc : ℤ) = Except.ok
      { sampleRate := sr,
        channels := (List.range nc).map fun channel =>
          (List.range (data.length / 2 / nc)).map fun i =>
            ((toInt16List data).getD (i * nc + channel) 0 : ℚ) / 32768 } := by
    simp only [decodeRawPcm, toInt16List_length, Int.toNat_natCast]
    rw [if_neg (by omega), if_neg (by omega), if_neg hframe]
  refine ⟨_, hdec, ?_, ?_, ?_, ?_⟩
  · simp
  · intro ch hch
    obtain ⟨c, _, rfl⟩ := List.mem_map.mp hch
    simp
  · intro ch hch s hs
    obtain ⟨c, _, rfl⟩ := List.mem_map.mp hch
    obtain ⟨i, _, rfl⟩ := List.mem_map.mp hs
    have hb := toInt16List_getD_bounds data (i * nc + c)
    constructor
    · rw [le_div_iff₀ (by norm_num : (0 : ℚ) < 32768)]
      have hq : (-32768 : ℚ) ≤ ((toInt16List data).getD (i * nc + c) 0 : ℚ) := by
        exact_mod_cast hb.1
      linarith
    · rw [div_lt_one (by norm_num : (0 : ℚ) < 32768)]
      have hq : ((toInt16List data).getD (i * nc + c) 0 : ℚ) ≤ 32767 := by
        exact_mod_cast hb.2
      linarith
  · intro c i hc hi
    rw [getD_map_range _ _ _ hc, getD_map_range _ _ _ hi]

/-- Witness for C2 at a concrete input: the byte pair 0x00 0x80 is the sample
-32768, decoded as the single mono sample -1. -/
theorem decodeRawPcm_ok_spec_witness :
    (0 < 1 ∧ [(0 : Fin 256), 128].length % 2 = 0 ∧ 2 * 1 ≤ [(0 : Fin 256), 128].length) ∧
      ∃ buf, decodeRawPcm [(0 : Fin 256), 128] 24000 ((1 : ℕ) : ℤ) = Except.ok buf ∧
        buf.channels.length = 1 ∧
        (∀ ch ∈ buf.channels, ch.length = [(0 : Fin 256), 128].length / 2 / 1) ∧
        (∀ ch ∈ buf.channels, ∀ s ∈ ch, -1 ≤ s ∧ s < 1) ∧
        (∀ c i, c < 1 → i < [(0 : Fin 256), 128].length / 2 / 1 →
          (buf.channels.getD c []).getD i 0 =
            ((toInt16List [(0 : Fin 256), 128]).getD (i * 1 + c) 0 : ℚ) / 32768) :=
  ⟨⟨by decide, by decide, by decide⟩,
    decodeRawPcm_ok_spec [(0 : Fin 256), 128] 24000 1 (by decide) (by decide) (by decide)⟩

/- ===================== Text Layout Engine ===================== -/

/-- The space character, the separator of the word split in wrapText. -/
def spaceChar : Char := Char.ofNat 32

/-- Loop of wrapText (components/VideoPreview, lines 200-210): starting from
the accumulated current line, append the next word if the measured width of
the joined candidate stays under maxWidth, otherwise emit the current line
and start a new one from the word; the final accumulated line is always
emitted. The measure function abstracts ctx.measureText at the active font,
and only the order of widths matters, so the width type is any linear
order. -/
def wrapLoop {W : Type} [LinearOrder W] (measure : String → W) (maxWidth : W) :
    List String → String → List String
  | [], currentLine => [currentLine]
  | word :: rest, currentLine =>
    if measure (currentLine ++ " " ++ word) < maxWidth then
      wrapLoop measure maxWidth rest (currentLine ++ " " ++ word)
    else
      currentLine :: wrapLoop measure maxWidth rest word

/-- Shallow embedding of wrapText (components/VideoPreview, lines 195-212).
The host splits the text at every single space character, keeping empty
fragments, which is the behavior of String.split with the space predicate.
The split never returns an empty list, so the first branch is unreachable. -/
def wrapText {W : Type} [LinearOrder W] (measure : String → W) (text : String)
    (maxWidth : W) : List String :=
  match text.split (fun c => c == spaceChar) with
  | [] => []
  | w :: ws => wrapLoop measure maxWidth ws w

theorem split_space_ne_nil (text : String) :
    text.split (fun c => c == spaceChar) ≠ [] := by
  rw [String.split_of_valid]
  simp [List.splitOnP_ne_nil]

theorem wrapText_eq {W : Type} [LinearOrder W] (measure : String → W) (maxWidth : W)
    (text : String) (w : String) (ws : List String)
    (h : text.split (fun c => c == spaceChar) = w :: ws) :
    wrapText measure text maxWidth = wrapLoop measure maxWidth ws w := by
  unfold wrapText
  rw [h]

theorem wrapLoop_mem {W : Type} [LinearOrder W] (measure : String → W) (maxWidth : W) :
    ∀ (ws : List String) (cur : String), ∀ line ∈ wrapLoop measure maxWidth ws cur,
      measure line < maxWidth ∨ line = cur ∨ line ∈ ws
  | [], cur => by
    intro line h
    simp only [wrapLoop, List.mem_singleton] at h
    exact Or.inr (Or.inl h)
  | w :: ws, cur => by
    intro line h
    rw [wrapLoop] at h
    by_cases hc : measure (cur ++ " " ++ w) < maxWidth
    · rw [if_pos hc] at h
      rcases wrapLoop_mem measure maxWidth ws (cur ++ " " ++ w) line h with h1 | h1 | h1
      · exact Or.inl h1
      · exact Or.inl (h1 ▸ hc)
      · exact Or.inr (Or.inr (List.mem_cons_of_mem w h1))
    · rw [if_neg hc] at h
      rcases List.mem_cons.mp h with h1 | h1
      · exact Or.inr (Or.inl h1)
      · rcases wrapLoop_mem measure maxWidth ws w line h1 with h2 | h2 | h2
        · exact Or.inl h2
        · exact Or.inr (Or.inr (h2 ▸ List.mem_cons_self w ws))
        · exact Or.inr (Or.inr (List.mem_cons_of_mem w h2))

theorem wrapLoop_length_pos {W : Type} [LinearOrder W] (measure : String → W)
    (maxWidth : W) :
    ∀ (ws : List String) (cur : String), 1 ≤ (wrapLoop measure maxWidth ws cur).length
  | [], _ => by simp [wrapLoop]
  | w :: ws, cur => by
    rw [wrapLoop]
    split
    · exact wrapLoop_length_pos measure maxWidth ws (cur ++ " " ++ w)
    · simp

/-- C6: every line emitted by wrapText measures under maxWidth, except that a
line that does not fit is always one whole word of the input split; since a
word is emitted unmodified, an over-wide word is never broken across
lines. -/
theorem wrapText_line_fits {W : Type} [LinearOrder W] (measure : String → W)
    (text : String) (maxWidth : W) :
    ∀ line ∈ wrapText measure text maxWidth,
      measure line < maxWidth ∨ line ∈ text.split (fun c => c == spaceChar) := by
  intro line hline
  cases hsplit : text.split (fun c => c == spaceChar) with
  | nil => exact absurd hsplit (split_space_ne_nil text)
  | cons w ws =>
    rw [wrapText_eq measure maxWidth text w ws hsplit] at hline
    rcases wrapLoop_mem measure maxWidth ws w line hline with h | h | h
    · exact Or.inl h
    · exact Or.inr (h ▸ List.mem_cons_self w ws)
    · exact Or.inr (List.mem_cons_of_mem w h)

/-- Witness for C6 at a concrete input: with character count as the measure
and maxWidth 4, the text aa bb wraps into two lines, and the emitted line aa
measures under 4. -/
theorem wrapText_line_fits_witness :
    "aa" ∈ wrapText (fun s => s.length) "aa bb" 4 ∧
      ((fun s : String => s.length) "aa" < 4 ∨
        "aa" ∈ "aa bb".split (fun c => c == spaceChar)) :=
  ⟨by rw [wrapText, String.split_of_valid]; decide,
    wrapText_line_fits (fun s => s.length) "aa bb" 4 "aa"
      (by rw [wrapText, String.split_of_valid]; decide)⟩

/-- C7: wrapText always emits the final accumulated line, so its result is
never empty; on the empty string it returns exactly one empty line. -/
theorem wrapText_never_empty {W : Type} [LinearOrder W] (measure : String → W)
    (text : String) (maxWidth : W) :
    1 ≤ (wrapText measure text maxWidth).length ∧
      wrapText measure "" maxWidth = [""] := by
  constructor
  · cases hsplit : text.split (fun c => c == spaceChar) with
    | nil => exact absurd hsplit (split_space_ne_nil text)
    | cons w ws =>
      rw [wrapText_eq measure maxWidth text w ws hsplit]
      exact wrapLoop_length_pos measure maxWidth ws w
  · have h0 : ("" : String).split (fun c => c == spaceChar) = [""] := by
      rw [String.split_of_valid]
      decide
    rw [wrapText_eq measure maxWidth "" "" [] h0]
    rfl

theorem intercalate_go_append (s : String) :
    ∀ (t : List String) (x acc : String),
      String.intercalate.go (x ++ acc) s t = x ++ String.intercalate.go acc s t
  | [], _, _ => rfl
  | c :: t, x, acc => by
    have h : (x ++ acc) ++ s ++ c = x ++ (acc ++ s ++ c) := by
      rw [String.append_assoc x acc s, String.append_assoc x (acc ++ s) c]
    show String.intercalate.go ((x ++ acc) ++ s ++ c) s t =
      x ++ String.intercalate.go (acc ++ s ++ c) s t
    rw [h]
    exact intercalate_go_append s t x (acc ++ s ++ c)

theorem intercalate_cons_cons (s a b : String) (t : List String) :
    String.intercalate s (a :: b :: t) = a ++ s ++ String.intercalate s (b :: t) :=
  intercalate_go_append s t (a ++ s) b

theorem intercalate_map_mk :
    ∀ L : List (List Char),
      String.intercalate " " (L.map String.mk) = String.mk (List.intercalate [spaceChar] L)
  | [] => rfl
  | [x] => by
    show String.mk x = String.mk (List.intercalate [spaceChar] [x])
    congr 1
    simp [List.intercalate, List.intersperse]
  | x :: y :: t => by
    rw [List.map_cons, List.map_cons, intercalate_cons_cons, ← List.map_cons,
      intercalate_map_mk (y :: t)]
    have hsep : (" " : String) = String.mk [spaceChar] := by decide
    rw [hsep]
    show String.mk (x ++ [spaceChar] ++ List.intercalate [spaceChar] (y :: t)) =
      String.mk (List.intercalate [spaceChar] (x :: y :: t))
    congr 1
    simp [List.intercalate, List.intersperse]

theorem intercalate_split_space (text : String) :
    String.intercalate " " (text.split (fun c => c == spaceChar)) = text := by
  rw [String.split_of_valid, intercalate_map_mk]
  have h1 : List.splitOnP (fun c => c == spaceChar) text.data =
      text.data.splitOn spaceChar := rfl
  rw [h1, List.intercalate_splitOn]

theorem wrapLoop_join {W : Type} [LinearOrder W] (measure : String → W) (maxWidth : W) :
    ∀ (ws : List String) (cur : String),
      String.intercalate " " (wrapLoop measure maxWidth ws cur) =
        String.intercalate " " (cur :: ws)
  | [], _ => rfl
  | w :: ws, cur => by
    rw [wrapLoop]
    split
    · rw [wrapLoop_join measure maxWidth ws (cur ++ " " ++ w)]
      cases ws with
      | nil =>
        rw [intercalate_cons_cons]
        rfl
      | cons v vs =>
        rw [intercalate_cons_cons, intercalate_cons_cons, intercalate_cons_cons]
        simp [String.append_assoc]
    · have hrec := wrapLoop_join measure maxWidth ws w
      rcases hr : wrapLoop measure maxWidth ws w with _ | ⟨r0, rtail⟩
      · have hpos := wrapLoop_length_pos measure maxWidth ws w
        rw [hr] at hpos
        simp at hpos
      · rw [intercalate_cons_cons, intercalate_cons_cons, ← hr, hrec]

/-- C9: joining the lines produced by wrapText with a single space reproduces
the input text exactly, for every text, maxWidth, and measure function. -/
theorem wrapText_join {W : Type} [LinearOrder W] (measure : String → W)
    (text : String) (maxWidth : W) :
    String.intercalate " " (wrapText measure text maxWidth) = text := by
  cases hsplit : text.split (fun c => c == spaceChar) with
  | nil => exact absurd hsplit (split_space_ne_nil text)
  | cons w ws =>
    rw [wrapText_eq measure maxWidth text w ws hsplit,
      wrapLoop_join measure maxWidth ws w, ← hsplit, intercalate_split_space]

/-- A hadith record (types.ts): primary Arabic script, English translation,
source label, grade label. -/
structure Hadith where
  arabic : String
  english : String
  source : String
  grade : String

/-- Dynamic font sizing of the render routine (components/VideoPreview, lines
89-101): the pair (baseArabicSize, baseEnglishSize) selected from the total
character count with strict greater-than boundaries. -/
def fontSizes (totalCharCount : ℕ) : ℕ × ℕ :=
  if totalCharCount > 800 then (42, 32)
  else if totalCharCount > 500 then (52, 40)
  else (64, 48)

/-- Total character count feeding the font ladder (components/VideoPreview,
line 94): the length of the primary script plus the length of the
translation. -/
def totalCharCount (h : Hadith) : ℕ :=
  h.arabic.length + h.english.length

/-- C4: the font ladder maps the total character count to one of exactly
three fixed pairs with strict boundaries: above 800 the smallest pair
(42, 32), otherwise above 500 the medium pair (52, 40), otherwise the
largest pair (64, 48); in particular 799 selects the medium pair and 801 the
smallest. -/
theorem fontSizes_ladder (n : ℕ) :
    (800 < n → fontSizes n = (42, 32)) ∧
      (500 < n → n ≤ 800 → fontSizes n = (52, 40)) ∧
      (n ≤ 500 → fontSizes n = (64, 48)) ∧
      fontSizes 799 = (52, 40) ∧ fontSizes 801 = (42, 32) := by
  refine ⟨fun h => ?_, fun h1 h2 => ?_, fun h => ?_, by decide, by decide⟩
  · rw [fontSizes, if_pos h]
  · rw [fontSizes, if_neg (by omega), if_pos h1]
  · rw [fontSizes, if_neg (by omega), if_neg (by omega)]

/-- Witness for C4 at a concrete input: total count 799 is over 500 and at
most 800, so the medium pair is selected. -/
theorem fontSizes_ladder_witness :
    500 < 799 ∧ 799 ≤ 800 ∧ fontSizes 799 = (52, 40) :=
  ⟨by decide, by decide, (fontSizes_ladder 799).2.1 (by decide) (by decide)⟩

/-- C10: both selected sizes never increase when the total character count
grows, and in every selected pair the primary size is strictly greater than
the translation size. -/
theorem fontSizes_monotone (m n : ℕ) (hmn : m ≤ n) :
    (fontSizes n).1 ≤ (fontSizes m).1 ∧
      (fontSizes n).2 ≤ (fontSizes m).2 ∧
      (fontSizes n).2 < (fontSizes n).1 := by
  unfold fontSizes
  split_ifs <;> simp <;> omega

/-- Witness for C10 at concrete inputs: growing the count from 300 to 900
shrinks both sizes, and the primary size stays above the translation size. -/
theorem fontSizes_monotone_witness :
    300 ≤ 900 ∧
      ((fontSizes 900).1 ≤ (fontSizes 300).1 ∧
        (fontSizes 900).2 ≤ (fontSizes 300).2 ∧
        (fontSizes 900).2 < (fontSizes 900).1) :=
  ⟨by decide, fontSizes_monotone 300 900 (by decide)⟩

/- ===================== Frame Compositor: cover-fit ===================== -/

/-- Placement rectangle for the background visual on the raster surface. -/
structure DrawRect where
  drawW : ℚ
  drawH : ℚ
  drawX : ℚ
  drawY : ℚ

/-- Cover-fit computation of the render routine (components/VideoPreview,
lines 49-65): when the visual is proportionally wider than the surface, the
height axis fits exactly and the width is cropped and centered; otherwise
the width axis fits exactly and the height is cropped and centered. -/
def coverFit (videoWidth videoHeight W H : ℚ) : DrawRect :=
  let videoAspect := videoWidth / videoHeight
  let canvasAspect := W / H
  if videoAspect > canvasAspect then
    { drawW := H * videoAspect, drawH := H, drawX := (W - H * videoAspect) / 2, drawY := 0 }
  else
    { drawW := W, drawH := W / videoAspect, drawX := 0, drawY := (H - W / videoAspect) / 2 }

/-- C8: cover-fitting a 16:9 visual onto the 1080x1920 surface yields a draw
width strictly wider than the surface width and a vertical offset of zero:
the height axis fits exactly, the width is cropped. -/
theorem coverFit_16_9_portrait (vw vh : ℚ) (h : vw / vh = 16 / 9) :
    1080 < (coverFit vw vh 1080 1920).drawW ∧ (coverFit vw vh 1080 1920).drawY = 0 := by
  rw [coverFit]
  simp only [h]
  norm_num

/-- Witness for C8 at a concrete input: a 1920x1080 visual is 16:9, its draw
width exceeds 1080 and its vertical offset is zero. -/
theorem coverFit_16_9_portrait_witness :
    (1920 : ℚ) / 1080 = 16 / 9 ∧
      (1080 < (coverFit 1920 1080 1080 1920).drawW ∧
        (coverFit 1920 1080 1080 1920).drawY = 0) :=
  ⟨by norm_num, coverFit_16_9_portrait 1920 1080 (by norm_num)⟩

/- ============== Capture and Mux Orchestrator: progress, session ============== -/

/-- Generation status values of the host state machine (types.ts,
GenerationState). -/
inductive GenStatus where
  | idle
  | fetching_hadith
  | generating_tts
  | generating_video
  | complete
  | error
  deriving DecidableEq

/-- Generation state (types.ts): status, progress percentage, message. -/
structure GenerationState where
  status : GenStatus
  progress : ℚ
  message : String

/-- Progress value computed on each poll tick of the encode interval
(src/App.tsx line 153). -/
def progressFormula (elapsed durationMs : ℚ) : ℚ :=
  min (40 + elapsed / durationMs * 60) 99

/-- Progress actually stored into the generation state on each tick: the
floor of the formula value (src/App.tsx line 154). -/
def reportedProgress (elapsed durationMs : ℚ) : ℤ :=
  Int.floor (progressFormula elapsed durationMs)

/-- State set by the recorder stop handler (src/App.tsx lines 136-140): the
only place progress 100 is ever written. -/
def recorderOnStopState : GenerationState :=
  { status := GenStatus.complete, progress := 100, message := "Short Production Complete!" }

/-- C5 counterexample: at elapsed 100 ms of a 12000 ms narration the formula
value is 40.5 while the reported progress is its floor 40, so the reported
progress does not equal min(40 + (elapsed/totalDuration)*60, 99) as claimed:
the store rounds the formula value down. -/
theorem reportedProgress_ne_formula :
    (reportedProgress 100 12000 : ℚ) ≠ progressFormula 100 12000 := by
  have h : progressFormula 100 12000 = 81 / 2 := by
    rw [progressFormula]
    norm_num [min_def]
  rw [reportedProgress, h]
  norm_num

/-- C5 amended: the reported progress equals the floor of
min(40 + (elapsed/totalDuration)*60, 99); the formula value is 40 at elapsed
0 and clamps to 99 at elapsed = totalDuration, the reported progress never
exceeds 99 during encoding, and progress 100 is set only by the recorder
stop handler. -/
theorem reportedProgress_spec (d e : ℚ) (hd : 0 < d) :
    reportedProgress 0 d = 40 ∧
      reportedProgress d d = 99 ∧
      reportedProgress e d ≤ 99 ∧
      recorderOnStopState.progress = 100 ∧
      recorderOnStopState.status = GenStatus.complete := by
  refine ⟨?_, ?_, ?_, rfl, rfl⟩
  · rw [reportedProgress, progressFormula]
    norm_num [min_def]
  · have hdd : d / d = 1 := div_self hd.ne'
    rw [reportedProgress, progressFormula, hdd]
    norm_num [min_def]
  · have hle : progressFormula e d ≤ 99 := min_le_right _ _
    have := Int.floor_le_floor hle
    simpa [reportedProgress] using this

/-- Witness for C5 amended at a concrete input: a 12000 ms narration. -/
theorem reportedProgress_spec_witness :
    (0 : ℚ) < 12000 ∧
      (reportedProgress 0 12000 = 40 ∧
        reportedProgress 12000 12000 = 99 ∧
        reportedProgress 600 12000 ≤ 99 ∧
        recorderOnStopState.progress = 100 ∧
        recorderOnStopState.status = GenStatus.complete) :=
  ⟨by norm_num, reportedProgress_spec 12000 600 (by norm_num)⟩

/-- Possible outcomes of invoking generateFullVideo. The rejection outcome is
part of the outcome vocabulary so that its absence can be stated; the code
never produces it. -/
inductive CallOutcome where
  | proceeds
  | earlyReturn
  | sessionBusyRejection
  deriving DecidableEq

/-- Entry behavior of generateFullVideo (src/App.tsx lines 81-86): the only
guard returns early when no hadith is loaded or the preview ref is missing.
The current generation status is taken as an argument to record that the
function reads no session state: no busy check exists in the code. -/
def generateFullVideoCall (hadith : Option Hadith) (previewReady : Bool)
    (_status : GenStatus) : CallOutcome :=
  if hadith.isSome && previewReady then CallOutcome.proceeds else CallOutcome.earlyReturn

/-- Disabled condition of the Produce Short button (src/App.tsx line 294):
disabled when no hadith is loaded or the generation status is not idle. -/
def produceButtonDisabled (hadith : Option Hadith) (status : GenStatus) : Bool :=
  hadith.isNone || !(status == GenStatus.idle)

/-- C3 counterexample: with a hadith loaded, the preview ready, and a capture
session already active (status generating_video), a second direct call of
generateFullVideo proceeds past its guard; it is not rejected with a session
busy error, which the code never produces. -/
theorem generateFullVideo_no_busy_check :
    generateFullVideoCall (some ⟨"arabic", "english", "source", "Sahih"⟩) true
        GenStatus.generating_video = CallOutcome.proceeds ∧
      generateFullVideoCall (some ⟨"arabic", "english", "source", "Sahih"⟩) true
        GenStatus.generating_video ≠ CallOutcome.sessionBusyRejection :=
  ⟨rfl, by decide⟩

/-- C3 amended: a second record attempt while a session is active is
prevented only by the UI: the Produce Short button is disabled for every
non-idle status, while the record function itself performs no session check
and a direct second call proceeds regardless of the status. -/
theorem secondRecordAttempt_ui_only (h : Hadith) (st : GenStatus)
    (hst : st ≠ GenStatus.idle) :
    produceButtonDisabled (some h) st = true ∧
      generateFullVideoCall (some h) true st = CallOutcome.proceeds := by
  constructor
  · simp [produceButtonDisabled, hst]
  · rfl

/-- Witness for C3 amended at a concrete state: status generating_video. -/
theorem secondRecordAttempt_ui_only_witness :
    GenStatus.generating_video ≠ GenStatus.idle ∧
      (produceButtonDisabled (some ⟨"a", "e", "s", "g"⟩) GenStatus.generating_video = true ∧
        generateFullVideoCall (some ⟨"a", "e", "s", "g"⟩) true GenStatus.generating_video =
          CallOutcome.proceeds) :=
  ⟨by decide, secondRecordAttempt_ui_only ⟨"a", "e", "s", "g"⟩ GenStatus.generating_video
    (by decide)⟩
